import Mathlib

/-!
Verification of the go-batcher repository (github.com/117503445/go-batcher)
against its natural-language specification.

The repository source available here contains the `commit` package
(`commit/timeout.go`), which is embedded directly.  The core batching
engine (batcher.go, operation.go, operations.go) is not present in the
source tree; the engine, the operation type and the intake path are
modelled from the specification where a claim needs them, as noted on
each such definition.
-/

namespace GoBatcher

/-- Errors of the Go `error` type that the spec mentions: context
cancellation, context deadline exceeded, the "closed" error returned by
`submit` after shutdown, and the "not restartable" error of a second run. -/
inductive GoError where
  | canceled
  | deadlineExceeded
  | closed
  | notRestartable
  | msg (s : String)
deriving DecidableEq, Repr

/-- Shallow embedding of a Go `context.Context`: an optional absolute
deadline (time is modelled as `Nat` ticks) and a cancellation flag. -/
structure Ctx where
  deadline : Option Nat
  canceled : Bool
deriving DecidableEq, Repr

/-- The background context: no deadline, not canceled. -/
def Ctx.background : Ctx := { deadline := none, canceled := false }

/-- Semantics of Go `context.WithTimeout(parent, d)` invoked at instant
`now`: the child context carries the earlier of the parent deadline and
`now + d`, and inherits the parent's cancellation state. -/
def withTimeout (now : Nat) (parent : Ctx) (d : Nat) : Ctx :=
  { deadline :=
      some (match parent.deadline with
        | none => now + d
        | some pd => min pd (now + d)),
    canceled := parent.canceled }

/-- Canceling a context (the effect of calling its `cancel` function). -/
def cancelCtx (c : Ctx) : Ctx := { c with canceled := true }

/-- Modelled from the spec: the Operation type of operation.go (absent from
the source tree).  A unit of work carrying an immutable input `value`, a
write-once `result`, a write-once `err`, and a single-fire completion
signal `done`. -/
structure Operation (T R : Type) where
  value : T
  result : Option R
  err : Option GoError
  done : Bool
deriving DecidableEq, Repr

namespace Operation

/-- Modelled from the spec: a freshly created Operation — before the
completion signal fires, both result and err are undefined/zero. -/
def new (v : T) : Operation T R :=
  { value := v, result := none, err := none, done := false }

/-- Modelled from the spec: `resolve_result` sets the result and marks
completion.  The idempotency policy chosen (spec section 4.1 allows either)
is first-wins: a second resolve call is a no-op. -/
def setResult (op : Operation T R) (r : R) : Operation T R :=
  if op.done then op else { op with result := some r, done := true }

/-- Modelled from the spec: `resolve_error` sets the error and marks
completion; same first-wins idempotency policy as `setResult`. -/
def setError (op : Operation T R) (e : GoError) : Operation T R :=
  if op.done then op else { op with err := some e, done := true }

end Operation

/-- Modelled from the spec: a resolve call performed on an Operation, used
to quantify over every sequence of resolutions. -/
inductive OpAction (R : Type) where
  | setRes (r : R)
  | setErr (e : GoError)
deriving DecidableEq, Repr

/-- Applying a sequence of resolve calls to an Operation. -/
def applyActions (op : Operation T R) (acts : List (OpAction R)) : Operation T R :=
  acts.foldl
    (fun s a =>
      match a with
      | .setRes r => s.setResult r
      | .setErr e => s.setError e)
    op

/-- The completion invariant of spec section 3: before the completion
signal fires both result and err are undefined; once it has fired, exactly
one of the two is authoritative. -/
def opInv (op : Operation T R) : Prop :=
  (op.done = false → op.result = none ∧ op.err = none) ∧
  (op.done = true →
    (op.result.isSome = true ∧ op.err = none) ∨
    (op.result = none ∧ op.err.isSome = true))

/-- The input that decides a `wait(ctx)` call: whichever of the operation's
completion signal and the caller context's cancellation happened first. -/
inductive WaitFirst (R : Type) where
  | completion (res : Except GoError R)
  | ctxDone (e : GoError)

/-- Modelled from the spec: `Operation.wait(ctx)` blocks until completion
is signaled or the supplied context ends, whichever first; it returns the
operation's resolution in the first case and the context's error in the
second. -/
def wait : WaitFirst R → Except GoError R
  | .completion res => res
  | .ctxDone e => .error e

/-- Reading a completed Operation as the value `wait` observes: the result
when one is set, the error otherwise. -/
def readOp (op : Operation T R) : Except GoError R :=
  match op.result with
  | some r => .ok r
  | none =>
    match op.err with
    | some e => .error e
    | none => .error (.msg "unresolved")

/-- An Operations value (operations.go): an ordered slice of Operations,
handed as one group to the commit function. -/
abbrev Operations (T R : Type) : Type := List (Operation T R)

/-- Embedding of `batcher.CommitFunc[T, R]`: a function receiving the
invocation instant, a context and an operation group, returning the group
with its members resolved (the Go original mutates the operations in
place; the embedding returns the updated group). -/
def CommitFunc (T R : Type) : Type :=
  Nat → Ctx → Operations T R → Operations T R

/-- A commit function honours the resolve-every-member obligation of spec
section 6 when every operation of every group it returns is completed. -/
def ResolvesAll (f : CommitFunc T R) : Prop :=
  ∀ (now : Nat) (c : Ctx) (ops : Operations T R),
    ∀ op ∈ f now c ops, op.done = true

end GoBatcher

namespace commit

open GoBatcher

/-- Embedding of `commit.Timeout` (commit/timeout.go).  The Go function
panics when `commitFn` is nil, which the embedding renders as
`Except.error` carrying the panic message; otherwise it returns the
wrapper closure that derives a bounded context and delegates. -/
def Timeout (commitFn : Option (CommitFunc T R)) (timeout : Nat) :
    Except String (CommitFunc T R) :=
  match commitFn with
  | none => Except.error "batcher: nil commit func"
  | some f =>
    Except.ok (fun now parent ops => f now (withTimeout now parent timeout) ops)

/-- One invocation of the wrapper returned by `Timeout`, instrumented: the
calls made to the inner commit function (context and group of each), the
resolved group the wrapper produces, and the state of the derived context
when the wrapper returns. -/
structure WrapperRun (T R : Type) where
  innerCalls : List (Ctx × Operations T R)
  output : Operations T R
  derivedCtxAtReturn : Ctx

/-- The body of the closure returned by `Timeout`, line by line: derive
`ctx` via `context.WithTimeout(parent, timeout)`, call `commitFn(ctx, ops)`
exactly once, and run the deferred `cancel()` before returning. -/
def timeoutBodyRun (f : CommitFunc T R) (timeout : Nat) (now : Nat)
    (parent : Ctx) (ops : Operations T R) : WrapperRun T R :=
  let ctx := withTimeout now parent timeout
  { innerCalls := [(ctx, ops)],
    output := f now ctx ops,
    derivedCtxAtReturn := cancelCtx ctx }

end commit

namespace GoBatcher

/-- The Configuration of spec section 3: `maxSize` (0 disables the size
trigger) and `maxAge` (0 disables the time trigger; durations are `Nat`
ticks). -/
structure Config where
  maxSize : Nat
  maxAge : Nat
deriving DecidableEq, Repr

/-- Modelled from the spec: the events driving the Engine's single run
loop (batcher.go is absent from the source tree).  `submit` hands a value
to the loop, `timerFire` is the deadline timer of the current group,
`cancel` is cancellation of the run-loop lifecycle context, and
`waitCancel i` is caller `i` abandoning its `wait` call. -/
inductive Event (T : Type) where
  | submit (v : T)
  | timerFire
  | cancel
  | waitCancel (i : Nat)
deriving DecidableEq, Repr

/-- Modelled from the spec: the run-loop state of the Batching Engine.
`group` is the current accumulating group (submission order), `commits`
records every commit invocation in dispatch order, each tagged with
whether the context passed to the commit function was canceled (true only
for the forced shutdown flush), `stopped` marks the terminal Stopped
state, and `ret` is the value `Run` returns. -/
structure EState (T : Type) where
  group : List T
  commits : List (Bool × List T)
  stopped : Bool
  ret : Option GoError
deriving DecidableEq, Repr

/-- The Engine's initial state: Idle, nothing committed, running. -/
def initState : EState T :=
  { group := [], commits := [], stopped := false, ret := none }

/-- Modelled from the spec: one step of the run-loop state machine of spec
section 4.3.  A submission appends to the group and flushes the instant
the size reaches `maxSize` (when `maxSize > 0`); the deadline timer
flushes a non-empty group (when `maxAge > 0`); run-context cancellation
force-flushes the pending group through the commit capability with the
canceled context (the spec's recommended uniform policy) and enters
Stopped; a caller abandoning its `wait` does not touch the Engine. -/
def step (cfg : Config) (s : EState T) (e : Event T) : EState T :=
  if s.stopped then s
  else
    match e with
    | .submit v =>
      let g := s.group ++ [v]
      if 0 < cfg.maxSize ∧ cfg.maxSize ≤ g.length then
        { s with group := [], commits := s.commits ++ [(false, g)] }
      else
        { s with group := g }
    | .timerFire =>
      if 0 < cfg.maxAge ∧ s.group.isEmpty = false then
        { s with group := [], commits := s.commits ++ [(false, s.group)] }
      else s
    | .cancel =>
      { group := [],
        commits :=
          if s.group.isEmpty then s.commits
          else s.commits ++ [(true, s.group)],
        stopped := true,
        ret := some .canceled }
    | .waitCancel _ => s

/-- Running the Engine over a sequence of events from the initial state. -/
def run (cfg : Config) (events : List (Event T)) : EState T :=
  events.foldl (step cfg) initState

/-- Modelled from the spec: the outcome of `submit(ctx, value)` as a
function of whether the run loop has terminated and whether the caller's
context was canceled before the hand-off: "closed" after termination, the
context's cancellation error on caller cancellation, success otherwise
(the Operation handle is returned immediately, with no dependence on the
eventual commit). -/
def submitResult (stopped : Bool) (ctxCanceled : Bool) : Except GoError Unit :=
  if stopped then .error .closed
  else if ctxCanceled then .error .canceled
  else .ok ()

/-- Resolution of one committed group by an elementwise commit capability
that obeys the section 6 contract: with a live context it sets each
operation's result from its value via `f`; with a canceled context it
resolves every member with the cancellation error. -/
def resolveGroup (f : T → R) (c : Bool × List T) : List (Except GoError R) :=
  if c.1 then c.2.map (fun _ => Except.error GoError.canceled)
  else c.2.map (fun v => Except.ok (f v))

/-- The resolutions produced across all commit invocations of a final
Engine state, in dispatch order. -/
def resolutions (f : T → R) (s : EState T) : List (Except GoError R) :=
  (s.commits.map (resolveGroup f)).flatten

/-- The values submitted by a sequence of events, in submission order. -/
def submittedValues (events : List (Event T)) : List T :=
  events.filterMap
    (fun e =>
      match e with
      | .submit v => some v
      | _ => none)

/-- Uppercasing a string, the commit transformation of the spec's concrete
scenario. -/
def upper (s : String) : String := String.mk (s.data.map Char.toUpper)

/-- A sample commit function used to instantiate decorator theorems: it
resolves every operation of the group with the cancellation error. -/
def errCommit : CommitFunc String String :=
  fun _ _ ops => ops.map (fun op => op.setError GoError.canceled)

end GoBatcher

namespace GoBatcher

/-- Unfolding `step` on a submission that does not fill the group. -/
theorem step_submit_no_flush (cfg : Config) (s : EState T) (v : T)
    (hs : s.stopped = false)
    (h : ¬(0 < cfg.maxSize ∧ cfg.maxSize ≤ (s.group ++ [v]).length)) :
    step cfg s (Event.submit v) = { s with group := s.group ++ [v] } := by
  simp only [step, hs, Bool.false_eq_true, if_false]
  rw [if_neg h]

/-- Unfolding `step` on the submission that reaches `maxSize`. -/
theorem step_submit_flush (cfg : Config) (s : EState T) (v : T)
    (hs : s.stopped = false)
    (h : 0 < cfg.maxSize ∧ cfg.maxSize ≤ (s.group ++ [v]).length) :
    step cfg s (Event.submit v) =
      { s with group := [], commits := s.commits ++ [(false, s.group ++ [v])] } := by
  simp only [step, hs, Bool.false_eq_true, if_false]
  rw [if_pos h]

/-- With the time trigger disabled the deadline timer never flushes. -/
theorem step_timer_disabled (cfg : Config) (s : EState T) (hs : s.stopped = false)
    (hA : cfg.maxAge = 0) : step cfg s Event.timerFire = s := by
  simp [step, hs, hA]

/-- A caller abandoning its `wait` never changes the Engine state. -/
theorem step_waitCancel (cfg : Config) (s : EState T) (i : Nat) :
    step cfg s (Event.waitCancel i) = s := by
  by_cases h : s.stopped = true <;> simp [step, h]

/-- Unfolding `step` on run-context cancellation: forced flush of the
pending group with the canceled context, then the terminal Stopped state,
with `Run` returning the cancellation error. -/
theorem step_cancel (cfg : Config) (s : EState T) (hs : s.stopped = false) :
    step cfg s Event.cancel =
      { group := [],
        commits := if s.group.isEmpty then s.commits
          else s.commits ++ [(true, s.group)],
        stopped := true, ret := some GoError.canceled } := by
  simp [step, hs]

/-- Submissions that never fill the group just accumulate: as long as the
group stays strictly below `maxSize` (or the size trigger is disabled),
the run loop only appends, commits nothing, and stays running. -/
theorem run_submits_accum (cfg : Config) :
    ∀ (vs : List T) (s : EState T), s.stopped = false →
      (cfg.maxSize = 0 ∨ s.group.length + vs.length < cfg.maxSize) →
      List.foldl (step cfg) s (vs.map Event.submit) =
        { s with group := s.group ++ vs } := by
  intro vs
  induction vs with
  | nil =>
    intro s hs _
    simp
  | cons v vs ih =>
    intro s hs hcond
    simp only [List.length_cons] at hcond
    have hnoflush : ¬(0 < cfg.maxSize ∧ cfg.maxSize ≤ (s.group ++ [v]).length) := by
      have hgl : (s.group ++ [v]).length = s.group.length + 1 := by simp
      rw [hgl]
      rcases hcond with h0 | hlt <;> omega
    rw [List.map_cons, List.foldl_cons, step_submit_no_flush cfg s v hs hnoflush]
    rw [ih { s with group := s.group ++ [v] } (by simp [hs])
        (by rcases hcond with h0 | hlt
            · exact Or.inl h0
            · refine Or.inr ?_
              simp only [List.length_append, List.length_cons, List.length_nil]
              omega)]
    simp

/-- The submission that brings the group exactly to `maxSize` flushes it:
the whole batch is committed as one group in submission order and the
group resets. -/
theorem run_submits_flush (cfg : Config) (hpos : 0 < cfg.maxSize)
    (vs : List T) (s : EState T) (hs : s.stopped = false)
    (hlen : s.group.length + vs.length = cfg.maxSize) (hne : vs ≠ []) :
    List.foldl (step cfg) s (vs.map Event.submit) =
      { s with group := [],
               commits := s.commits ++ [(false, s.group ++ vs)] } := by
  rcases List.eq_nil_or_concat vs with rfl | ⟨ws, v, rfl⟩
  · exact absurd rfl hne
  · simp only [List.concat_eq_append] at hlen ⊢
    have hlen2 : s.group.length + ws.length + 1 = cfg.maxSize := by
      simp only [List.length_append, List.length_cons, List.length_nil] at hlen
      omega
    rw [List.map_append, List.foldl_append]
    rw [run_submits_accum cfg ws s hs (Or.inr (by omega))]
    rw [List.map_cons, List.map_nil, List.foldl_cons, List.foldl_nil]
    rw [step_submit_flush cfg _ v (by simp [hs])
        (by refine ⟨hpos, ?_⟩
            simp only [List.length_append, List.length_cons, List.length_nil]
            omega)]
    simp [List.append_assoc]


/-- With both triggers disabled, no sequence of submissions and timer
events ever commits: the run loop keeps accumulating until canceled. -/
theorem run_no_trigger (cfg : Config) (h0 : cfg.maxSize = 0) (hA : cfg.maxAge = 0) :
    ∀ (es : List (Event T)) (s : EState T), s.stopped = false →
      Event.cancel ∉ es →
      List.foldl (step cfg) s es =
        { s with group := s.group ++ submittedValues es } := by
  intro es
  induction es with
  | nil =>
    intro s hs _
    simp [submittedValues]
  | cons e es ih =>
    intro s hs hnc
    have hnc2 : Event.cancel ∉ es := fun h => hnc (List.mem_cons_of_mem _ h)
    cases e with
    | submit v =>
      rw [List.foldl_cons,
        step_submit_no_flush cfg s v hs (by rw [h0]; omega),
        ih { s with group := s.group ++ [v] } (by simp [hs]) hnc2]
      simp [submittedValues, List.filterMap_cons]
    | timerFire =>
      rw [List.foldl_cons, step_timer_disabled cfg s hs hA, ih s hs hnc2]
      simp [submittedValues, List.filterMap_cons]
    | cancel => exact absurd (List.mem_cons_self _ _) hnc
    | waitCancel i =>
      rw [List.foldl_cons, step_waitCancel cfg s i, ih s hs hnc2]
      simp [submittedValues, List.filterMap_cons]

/-- A fresh Operation satisfies the completion invariant. -/
theorem opInv_new (v : T) : opInv (Operation.new (R := R) v) := by
  simp [opInv, Operation.new]

/-- `setResult` preserves the completion invariant. -/
theorem opInv_setResult (op : Operation T R) (h : opInv op) (r : R) :
    opInv (op.setResult r) := by
  unfold Operation.setResult
  split
  · exact h
  · rename_i hnd
    have hz := h.1 (by revert hnd; cases op.done <;> simp)
    exact ⟨by simp, fun _ => Or.inl (by simp [hz.2])⟩

/-- `setError` preserves the completion invariant. -/
theorem opInv_setError (op : Operation T R) (h : opInv op) (e : GoError) :
    opInv (op.setError e) := by
  unfold Operation.setError
  split
  · exact h
  · rename_i hnd
    have hz := h.1 (by revert hnd; cases op.done <;> simp)
    exact ⟨by simp, fun _ => Or.inr (by simp [hz.1])⟩

/-- Any sequence of resolve calls preserves the completion invariant. -/
theorem opInv_applyActions (op : Operation T R) (h : opInv op)
    (acts : List (OpAction R)) : opInv (applyActions op acts) := by
  induction acts generalizing op with
  | nil => simpa [applyActions] using h
  | cons a acts ih =>
    cases a with
    | setRes r =>
      have : applyActions op (OpAction.setRes r :: acts) =
          applyActions (op.setResult r) acts := rfl
      rw [this]
      exact ih _ (opInv_setResult op h r)
    | setErr e =>
      have : applyActions op (OpAction.setErr e :: acts) =
          applyActions (op.setError e) acts := rfl
      rw [this]
      exact ih _ (opInv_setError op h e)

/-- The sample commit function resolves every member of every group. -/
theorem errCommit_resolvesAll : ResolvesAll errCommit := by
  intro now c ops op hop
  rcases List.mem_map.1 hop with ⟨a, _, rfl⟩
  unfold Operation.setError
  split
  · rename_i hd
    exact hd
  · rfl


/-- C1 (amended): for every non-empty sequence of N submissions under
maxSize = N and maxAge = 0, exactly one commit invocation occurs and its
group holds all N operations in submission order; in the concrete
scenario maxSize = 2 with submissions "a" then "b" and an uppercasing
commit, the commit observes the group ["a", "b"] and the waits return
"A" and "B". -/
theorem submits_single_commit (T : Type) (vs : List T) (hne : vs ≠ []) :
    (run { maxSize := vs.length, maxAge := 0 } (vs.map Event.submit)).commits
        = [(false, vs)] ∧
    (run { maxSize := 2, maxAge := 0 }
        ((["a", "b"]).map Event.submit)).commits = [(false, ["a", "b"])] ∧
    resolutions upper
        (run { maxSize := 2, maxAge := 0 } ((["a", "b"]).map Event.submit))
      = [Except.ok "A", Except.ok "B"] ∧
    wait (WaitFirst.completion (Except.ok "A")) = Except.ok "A" ∧
    wait (WaitFirst.completion (Except.ok "B")) = Except.ok "B" := by
  refine ⟨?_, by decide, rfl, rfl, rfl⟩
  rw [run, run_submits_flush _ (List.length_pos.2 hne) vs initState rfl (by simp [initState]) hne]
  simp [initState]

/-- C1 counterexample: with N = 0 (the empty submission sequence and
maxSize = 0) no commit invocation occurs at all, so the claim's
"exactly one commit" fails for that N. -/
theorem submits_single_commit_cex :
    (run (T := String) { maxSize := 0, maxAge := 0 }
        (([] : List String).map Event.submit)).commits.length ≠ 1 := by
  decide

/-- C1 witness at vs = ["a", "b"]. -/
theorem submits_single_commit_w :
    (["a", "b"] : List String) ≠ [] ∧
    (run { maxSize := 2, maxAge := 0 }
        ((["a", "b"] : List String).map Event.submit)).commits
      = [(false, ["a", "b"])] :=
  ⟨by decide, (submits_single_commit String ["a", "b"] (by decide)).1⟩


/-- C6: with maxSize > 0, the submission that brings the group to maxSize
flushes immediately under any maxAge — the size trigger fires as soon as
the size is reached, in the same step, without waiting for more members
or for a deadline-timer event; in particular maxSize instant submissions
commit with no timer event at all. -/
theorem size_trigger_priority (T : Type) (cfg : Config) (hpos : 0 < cfg.maxSize)
    (s : EState T) (hs : s.stopped = false) (v : T)
    (hfull : cfg.maxSize ≤ s.group.length + 1)
    (vs : List T) (hlen : vs.length = cfg.maxSize) :
    step cfg s (Event.submit v) =
      { s with group := [], commits := s.commits ++ [(false, s.group ++ [v])] } ∧
    (run cfg (vs.map Event.submit)).commits = [(false, vs)] := by
  constructor
  · exact step_submit_flush cfg s v hs ⟨hpos, by simpa using hfull⟩
  · have hne : vs ≠ [] := by
      intro h
      rw [h] at hlen
      simp at hlen
      omega
    rw [run, run_submits_flush cfg hpos vs initState rfl (by simp [initState, hlen]) hne]
    simp [initState]

/-- C6 witness: maxSize = 2 with a very large maxAge; the second
submission flushes at once and two instant submissions commit with no
timer event. -/
theorem size_trigger_priority_w :
    step { maxSize := 2, maxAge := 1000000 }
        { group := ["a"], commits := [], stopped := false, ret := none }
        (Event.submit "b") =
      { group := [], commits := [(false, ["a", "b"])], stopped := false,
        ret := none } ∧
    (run { maxSize := 2, maxAge := 1000000 }
        ((["a", "b"]).map Event.submit)).commits = [(false, ["a", "b"])] := by
  have h := size_trigger_priority String { maxSize := 2, maxAge := 1000000 }
    (by decide) { group := ["a"], commits := [], stopped := false, ret := none }
    rfl "b" (by decide) ["a", "b"] rfl
  simpa using h

/-- C3: canceling the run-loop context with K operations pending
(0 < K < maxSize, no timer fired) force-flushes the whole pending group
through the commit capability with the canceled context — every one of
the K operations receives a resolution, uniformly the cancellation
error — and Run returns the cancellation error in the terminal state. -/
theorem cancel_resolves_pending (T R : Type) (cfg : Config) (s : EState T)
    (hs : s.stopped = false) (hK : 0 < s.group.length)
    (_hlt : s.group.length < cfg.maxSize) (f : T → R) :
    (step cfg s Event.cancel).commits = s.commits ++ [(true, s.group)] ∧
    (step cfg s Event.cancel).stopped = true ∧
    (step cfg s Event.cancel).ret = some GoError.canceled ∧
    (resolveGroup f (true, s.group)).length = s.group.length ∧
    ∀ r ∈ resolveGroup f (true, s.group), r = Except.error GoError.canceled := by
  have hne : s.group.isEmpty = false := by
    cases hg : s.group with
    | nil => rw [hg] at hK; simp at hK
    | cons a l => simp
  refine ⟨?_, ?_, ?_, ?_, ?_⟩
  · rw [step_cancel cfg s hs]
    simp [hne]
  · rw [step_cancel cfg s hs]
  · rw [step_cancel cfg s hs]
  · simp [resolveGroup]
  · intro r hr
    simp only [resolveGroup, if_pos] at hr
    rcases List.mem_map.1 hr with ⟨a, _, rfl⟩
    rfl

/-- C3 witness: maxSize = 3 with two pending operations at cancellation. -/
theorem cancel_resolves_pending_w :
    (step { maxSize := 3, maxAge := 0 }
        { group := ["a", "b"], commits := [], stopped := false, ret := none }
        (Event.cancel : Event String)).commits = [(true, ["a", "b"])] ∧
    (step { maxSize := 3, maxAge := 0 }
        { group := ["a", "b"], commits := [], stopped := false, ret := none }
        (Event.cancel : Event String)).ret = some GoError.canceled := by
  have h := cancel_resolves_pending String String { maxSize := 3, maxAge := 0 }
    { group := ["a", "b"], commits := [], stopped := false, ret := none }
    rfl (by decide) (by decide) upper
  exact ⟨by simpa using h.1, h.2.2.1⟩

/-- C4: wait returns the operation's own resolution when completion comes
first and the caller context's cancellation error when the context ends
first; a caller abandoning its wait is invisible to the Engine — the step
relation ignores it, so the group, the eventual commits and every other
caller are exactly as if it had not happened. -/
theorem wait_ctx_local :
    (∀ (R : Type) (res : Except GoError R), wait (WaitFirst.completion res) = res) ∧
    (∀ (R : Type) (e : GoError),
      wait (R := R) (WaitFirst.ctxDone e) = Except.error e) ∧
    (∀ (T : Type) (cfg : Config) (s : EState T) (i : Nat),
      step cfg s (Event.waitCancel i) = s) ∧
    (∀ (T : Type) (cfg : Config) (es1 es2 : List (Event T)) (i : Nat),
      run cfg (es1 ++ Event.waitCancel i :: es2) = run cfg (es1 ++ es2)) := by
  refine ⟨fun R res => rfl, fun R e => rfl, fun T cfg s i => step_waitCancel cfg s i, ?_⟩
  intro T cfg es1 es2 i
  rw [run, run, List.foldl_append, List.foldl_append, List.foldl_cons,
    step_waitCancel]


/-- C5: submit fails with the "closed" error exactly when the run loop has
terminated (in particular after any event sequence that reached the
Stopped state); with the loop running it fails with the context's
cancellation error when the caller's context was canceled before the
hand-off, and otherwise succeeds immediately with the Operation handle,
with no dependence on the eventual commit. -/
theorem submit_closed_iff_stopped :
    (∀ st c : Bool, submitResult st c = Except.error GoError.closed ↔ st = true) ∧
    submitResult false true = Except.error GoError.canceled ∧
    submitResult false false = Except.ok () ∧
    (∀ (T : Type) (cfg : Config) (es : List (Event T)) (c : Bool),
      (run cfg es).stopped = true →
      submitResult (run cfg es).stopped c = Except.error GoError.closed) := by
  refine ⟨?_, rfl, rfl, ?_⟩
  · intro st c
    cases st <;> cases c <;> simp [submitResult]
  · intro T cfg es c hstop
    rw [hstop]
    rfl

/-- C5 witness: after a canceled run the Engine reports stopped and a
subsequent submit fails closed. -/
theorem submit_closed_iff_stopped_w :
    (run { maxSize := 0, maxAge := 0 } [(Event.cancel : Event String)]).stopped
        = true ∧
    submitResult
        (run { maxSize := 0, maxAge := 0 }
          [(Event.cancel : Event String)]).stopped false
      = Except.error GoError.closed :=
  ⟨by decide,
    submit_closed_iff_stopped.2.2.2 String { maxSize := 0, maxAge := 0 }
      [Event.cancel] false (by decide)⟩

/-- C7: under the degenerate configuration maxSize = 0 and maxAge = 0, no
sequence of submissions and timer events ever commits — everything stays
pending in the accumulating group — and only run-loop cancellation
flushes: the shutdown flush hands the whole group to the commit capability
with the canceled context, every member resolves with the cancellation
error, and a wait observing that resolution returns the cancellation
error. -/
theorem degenerate_no_trigger (T R : Type) (es : List (Event T))
    (hnc : Event.cancel ∉ es) (f : T → R) :
    (run { maxSize := 0, maxAge := 0 } es).commits = [] ∧
    (run { maxSize := 0, maxAge := 0 } es).group = submittedValues es ∧
    (run { maxSize := 0, maxAge := 0 } es).stopped = false ∧
    (run { maxSize := 0, maxAge := 0 } (es ++ [Event.cancel])).commits =
      (if (submittedValues es).isEmpty then []
        else [(true, submittedValues es)]) ∧
    resolutions f (run { maxSize := 0, maxAge := 0 } (es ++ [Event.cancel])) =
      (submittedValues es).map (fun _ => Except.error GoError.canceled) ∧
    wait (WaitFirst.completion (Except.error GoError.canceled) : WaitFirst R) =
      Except.error GoError.canceled := by
  have hrun := run_no_trigger { maxSize := 0, maxAge := 0 } rfl rfl es initState
    rfl hnc
  have hgrp : (run { maxSize := 0, maxAge := 0 } es).group = submittedValues es := by
    rw [run, hrun]
    simp [initState]
  have hcom : (run { maxSize := 0, maxAge := 0 } es).commits = [] := by
    rw [run, hrun]
    simp [initState]
  have hstp : (run { maxSize := 0, maxAge := 0 } es).stopped = false := by
    rw [run, hrun]
    simp [initState]
  have hie : (run { maxSize := 0, maxAge := 0 } es).group.isEmpty
      = (submittedValues es).isEmpty := by rw [hgrp]
  have hcanc : run { maxSize := 0, maxAge := 0 } (es ++ [Event.cancel]) =
      step { maxSize := 0, maxAge := 0 } (run { maxSize := 0, maxAge := 0 } es)
        Event.cancel := by
    rw [run, run, List.foldl_append, List.foldl_cons, List.foldl_nil]
  refine ⟨hcom, hgrp, hstp, ?_, ?_, rfl⟩
  · rw [hcanc, step_cancel _ _ hstp]
    by_cases hemp : (submittedValues es).isEmpty = true
    · simp [hie, hemp, hcom]
    · simp only [Bool.not_eq_true] at hemp
      simp [hie, hemp, hcom, hgrp]
  · rw [hcanc, step_cancel _ _ hstp]
    by_cases hemp : (submittedValues es).isEmpty = true
    · have hsv : submittedValues es = [] := by
        rw [List.isEmpty_iff] at hemp
        exact hemp
      simp [resolutions, hie, hemp, hcom, hsv]
    · simp only [Bool.not_eq_true] at hemp
      simp [resolutions, hie, hemp, hcom, hgrp, resolveGroup]

/-- C7 witness: two submissions and a stray timer event under the
degenerate configuration commit nothing until cancellation. -/
theorem degenerate_no_trigger_w :
    (run { maxSize := 0, maxAge := 0 }
        [Event.submit "a", Event.timerFire, Event.submit "b"]).commits = [] ∧
    resolutions upper
        (run { maxSize := 0, maxAge := 0 }
          ([Event.submit "a", Event.timerFire, Event.submit "b"] ++
            [Event.cancel])) =
      [Except.error GoError.canceled, Except.error GoError.canceled] := by
  have h := degenerate_no_trigger String String
    [Event.submit "a", Event.timerFire, Event.submit "b"] (by decide) upper
  exact ⟨h.1, by simpa using h.2.2.2.2.1⟩

/-- C8: every Operation reachable by any sequence of resolve calls
satisfies the completion invariant — before the completion signal both
result and err are unset; after it exactly one of the two is
authoritative — and a wait reading a completed operation observes a
consistent value: the result when the result is authoritative, the error
when the error is, never a torn state. -/
theorem operation_completion_invariant (T R : Type) (v : T)
    (acts : List (OpAction R)) :
    opInv (applyActions (Operation.new v) acts) ∧
    (∀ op : Operation T R, opInv op → op.done = true →
      (∃ r, op.result = some r ∧ op.err = none ∧ readOp op = Except.ok r) ∨
      (∃ e, op.err = some e ∧ op.result = none ∧ readOp op = Except.error e)) := by
  constructor
  · exact opInv_applyActions _ (opInv_new v) acts
  · intro op h hd
    rcases h.2 hd with ⟨hres, herr⟩ | ⟨hres, herr⟩
    · rcases Option.isSome_iff_exists.1 hres with ⟨r, hr⟩
      exact Or.inl ⟨r, hr, herr, by simp [readOp, hr]⟩
    · rcases Option.isSome_iff_exists.1 herr with ⟨e, he⟩
      exact Or.inr ⟨e, he, hres, by simp [readOp, hres, he]⟩

/-- C8 witness: a single resolve-result call on a fresh operation yields a
state satisfying the completion invariant. -/
theorem operation_completion_invariant_w :
    opInv (applyActions (Operation.new ("a" : String))
      ([OpAction.setRes "A"] : List (OpAction String))) :=
  (operation_completion_invariant String String "a" [OpAction.setRes "A"]).1


end GoBatcher

namespace commit

open GoBatcher

/-- C2: for every non-nil commit function f and timeout d, one invocation
of the wrapper `Timeout` returns makes exactly one call to f, with the
operation group passed through unchanged and a context derived from the
parent by `WithTimeout` whose deadline is at most the invocation instant
plus d; the wrapper's resolved output is exactly f's output on that
derived context, so whenever f resolves every member so does the
wrapper. -/
theorem timeout_delegates_once (T R : Type) (f : CommitFunc T R)
    (d now : Nat) (parent : Ctx) (ops : Operations T R)
    (hres : ResolvesAll f) :
    (timeoutBodyRun f d now parent ops).innerCalls =
      [(withTimeout now parent d, ops)] ∧
    (timeoutBodyRun f d now parent ops).output =
      f now (withTimeout now parent d) ops ∧
    (∀ w, Timeout (some f) d = Except.ok w →
      w now parent ops = f now (withTimeout now parent d) ops) ∧
    (∀ dl, (withTimeout now parent d).deadline = some dl → dl ≤ now + d) ∧
    (∀ op ∈ (timeoutBodyRun f d now parent ops).output, op.done = true) := by
  refine ⟨rfl, rfl, ?_, ?_, ?_⟩
  · intro w hw
    have hw2 : w = fun now parent ops => f now (withTimeout now parent d) ops := by
      simpa [Timeout] using hw.symm
    rw [hw2]
  · intro dl hdl
    simp only [withTimeout, Option.some.injEq] at hdl
    cases hp : parent.deadline with
    | none =>
      rw [hp] at hdl
      have h2 : now + d = dl := hdl
      omega
    | some pd =>
      rw [hp] at hdl
      have h2 : min pd (now + d) = dl := hdl
      calc dl = min pd (now + d) := h2.symm
        _ ≤ now + d := min_le_right _ _
  · intro op hop
    exact hres now (withTimeout now parent d) ops op hop

/-- C2 witness at the sample commit function. -/
theorem timeout_delegates_once_w :
    (timeoutBodyRun errCommit 5 0 Ctx.background
        [Operation.new "a"]).innerCalls =
      [(withTimeout 0 Ctx.background 5, [Operation.new "a"])] :=
  (timeout_delegates_once String String errCommit 5 0 Ctx.background
    [Operation.new "a"] errCommit_resolvesAll).1

/-- C9: `Timeout` panics (here: the Except error carrying the Go panic
message) exactly when its commit-function argument is nil, and for every
non-nil commit function it returns a usable wrapped capability. -/
theorem timeout_nil_panics (T R : Type) (d : Nat) :
    Timeout (T := T) (R := R) none d =
      Except.error "batcher: nil commit func" ∧
    (∀ f : CommitFunc T R, ∃ w, Timeout (some f) d = Except.ok w) ∧
    (∀ o : Option (CommitFunc T R),
      (∃ s, Timeout o d = Except.error s) ↔ o = none) := by
  refine ⟨rfl, fun f => ⟨_, rfl⟩, ?_⟩
  intro o
  cases o with
  | none => exact ⟨fun _ => rfl, fun _ => ⟨"batcher: nil commit func", rfl⟩⟩
  | some f =>
    constructor
    · rintro ⟨s, hs⟩
      simp [Timeout] at hs
    · intro h
      simp at h

/-- C9 witness at d = 5. -/
theorem timeout_nil_panics_w :
    Timeout (T := String) (R := String) none 5 =
      Except.error "batcher: nil commit func" :=
  (timeout_nil_panics String String 5).1

/-- C10: the context the Timeout wrapper hands to the inner commit
function always carries a deadline no later than the invocation instant
plus d, never outlives a parent deadline when one exists, inherits the
parent's cancellation state, and is canceled (deferred cancel) by the
time the wrapper returns, for every parent context and operation
group. -/
theorem timeout_ctx_bounded (T R : Type) (f : CommitFunc T R)
    (d now : Nat) (parent : Ctx) (ops : Operations T R) :
    (∃ cd, (withTimeout now parent d).deadline = some cd ∧ cd ≤ now + d) ∧
    (∀ pd, parent.deadline = some pd →
      ∃ cd, (withTimeout now parent d).deadline = some cd ∧ cd ≤ pd ∧
        cd ≤ now + d) ∧
    (withTimeout now parent d).canceled = parent.canceled ∧
    (timeoutBodyRun f d now parent ops).derivedCtxAtReturn.canceled = true ∧
    (timeoutBodyRun f d now parent ops).innerCalls =
      [(withTimeout now parent d, ops)] := by
  refine ⟨?_, ?_, rfl, rfl, rfl⟩
  · cases hp : parent.deadline with
    | none => exact ⟨now + d, by simp [withTimeout, hp], le_refl _⟩
    | some pd =>
      exact ⟨min pd (now + d), by simp [withTimeout, hp], min_le_right _ _⟩
  · intro pd hp
    exact ⟨min pd (now + d), by simp [withTimeout, hp], min_le_left _ _,
      min_le_right _ _⟩

/-- C10 witness: parent deadline 7, timeout 5 at instant 3. -/
theorem timeout_ctx_bounded_w :
    ∃ cd, (withTimeout 3 { deadline := some 7, canceled := false } 5).deadline
        = some cd ∧ cd ≤ 7 ∧ cd ≤ 3 + 5 :=
  (timeout_ctx_bounded String String errCommit 5 3
    { deadline := some 7, canceled := false } []).2.1 7 rfl

end commit
